import Mathlib

/-!
A shallow embedding of the encoder core of src/lzhhf1.c (an LZ77/LZSS
compressor with folded-unary length codes, MTF ranks and an adaptive FGK
coder), together with theorems checking the claims of the specification
against it.

Conventions of the embedding:
* C machine integers are modelled as Nat; the source masks indices with
  a bitwise and against (2^k - 1) on power-of-two buffer sizes, which is
  modelled as taking the remainder modulo 2^k;
* the circular window and look-ahead buffers are total functions Nat to Nat;
* the bit-level output stream is a List Bool (true is a 1 bit), appended
  most-significant-bit first, exactly in emission order;
* helper units that the driver includes but whose sources are not part of
  the repository snapshot (gtbitio2.c, lzhash.c, mtf.c, adhfgk2.c) are
  modelled from the description the specification gives of them; each such
  definition carries a doc comment beginning with Modelled from the spec.
-/

namespace Lzhhf

/-- Pointwise update of a buffer modelled as a total function. -/
def fupd {α : Type} (f : Nat → α) (i : Nat) (v : α) : Nat → α :=
  fun j => if j = i then v else f j

/-- MIN_LEN of lzhhf1.c line 50: minimum match length worth a back-reference. -/
def MIN_LEN : Nat := 4

/-- MTF_SIZE of lzhhf1.c line 51. -/
def MTF_SIZE : Nat := 256

/-- NMATCH of lzhhf1.c line 52: cap on accepted (improving) candidates. -/
def NMATCH : Nat := 196

/-- FAR_LIST_BITS of lzhhf1.c line 53. -/
def FAR_LIST_BITS : Nat := 12

/-- FAR_LIST of lzhhf1.c line 54: cap on visited chain nodes per search. -/
def FAR_LIST : Nat := 1 <<< FAR_LIST_BITS

/-- HASH_BYTES_N of lzhhf1.c line 56: number of bytes hashed together. -/
def HASH_BYTES_N : Nat := 4

/-- MFOLD of lzhhf1.c line 360: the folding factor of the unary length code. -/
def MFOLD : Nat := 2

/-- Modelled from the spec: gtbitio2.c is not under src. Section 4.1 of the
specification describes put_nbits as emitting the low n bits of the value,
most-significant bit first; a bit is a Bool, true for a 1 bit. -/
def put_nbits (v n : Nat) : List Bool :=
  (List.range n).reverse.map (fun i => v.testBit i)

/-- Folded-unary length code of put_codes, lzhhf1.c lines 356-365: with
code = len - (MIN_LEN+1), emit (code >>> MFOLD) one bits (the while loop of
put_ONE calls) and then the (MFOLD+1)-bit field ((code mod 2^MFOLD) <<< 1). -/
def ufc_len_bits (len : Nat) : List Bool :=
  List.replicate ((len - (MIN_LEN + 1)) >>> MFOLD) true ++
    put_nbits (((len - (MIN_LEN + 1)) % (1 <<< MFOLD)) <<< 1) (MFOLD + 1)

/-- Modelled from the spec: mtf.c is not under src. Section 4.2 of the
specification: mtf b returns the rank r with list r = b and moves b to the
front of the list, shifting the earlier entries one step right. -/
def mtf (l : List Nat) (b : Nat) : Nat × List Nat :=
  (l.indexOf b, b :: l.erase b)

/-- Initial MTF list set up by alloc_mtf: entry i holds byte value i. -/
def mtf_first : List Nat := List.range MTF_SIZE

/-- Node-array capacity of the FGK tree model: 256 symbols need at most
2*256+1 live nodes; index 0 is the null sentinel. -/
def fgk_cap : Nat := 1040

/-- Modelled from the spec: adhfgk2.c is not under src. State of the FGK
adaptive coder of section 4.3: tree nodes carry weight and sibling and
parent links, with a single NYT leaf for the not-yet-transmitted symbols.
Node identity is an array index; num gives the FGK node number used by the
sibling-property swaps; leafOf maps a symbol to its leaf (0 when unseen). -/
structure FgkState where
  wt : Array Nat
  par : Array Nat
  lch : Array Nat
  rch : Array Nat
  num : Array Nat
  leafOf : Array Nat
  nyt : Nat
  root : Nat
  nofree : Nat
  nextNum : Nat

/-- Array read with default 0 (index 0 plays the role of a null node). -/
def aget (a : Array Nat) (i : Nat) : Nat := a.getD i 0

/-- Modelled from the spec: fgk_init_first_node of adhfgk2.c builds the
initial tree holding only the NYT leaf, which is the root. -/
def fgk_init_first_node : FgkState :=
  { wt := Array.mkArray fgk_cap 0
    par := Array.mkArray fgk_cap 0
    lch := Array.mkArray fgk_cap 0
    rch := Array.mkArray fgk_cap 0
    num := (Array.mkArray fgk_cap 0).setD 1 2000
    leafOf := Array.mkArray MTF_SIZE 0
    nyt := 1
    root := 1
    nofree := 2
    nextNum := 1999 }

/-- Modelled from the spec: the highest-numbered live node whose weight
equals the weight of q (the block leader of the sibling-property swap). -/
def fgk_leader (s : FgkState) (q : Nat) : Nat :=
  (List.range s.nofree).foldl
    (fun best j =>
      if 1 ≤ j ∧ aget s.wt j = aget s.wt q ∧ aget s.num best < aget s.num j then j else best)
    q

/-- Modelled from the spec: exchange the subtrees rooted at a and b; the two
nodes trade parents, their parents trade the corresponding child slots, and
the two node numbers are exchanged. -/
def fgk_swap (s : FgkState) (a b : Nat) : FgkState :=
  let pa := aget s.par a
  let pb := aget s.par b
  let lch1 := if aget s.lch pa = a then s.lch.setD pa b else s.lch
  let lch2 := if aget s.lch pb = b then lch1.setD pb a else lch1
  let rch1 := if aget s.rch pa = a then s.rch.setD pa b else s.rch
  let rch2 := if aget s.rch pb = b then rch1.setD pb a else rch1
  { s with
    lch := lch2
    rch := rch2
    par := (s.par.setD a pb).setD b pa
    num := (s.num.setD a (aget s.num b)).setD b (aget s.num a) }

/-- Modelled from the spec: after emitting, increment the weights on the path
from the leaf to the root, first swapping the current node with the
highest-numbered node of equal weight (unless that node is itself or its own
parent), as section 4.3 describes for preserving the sibling property. -/
def fgk_update : Nat → FgkState → Nat → FgkState
  | 0, s, _ => s
  | fuel + 1, s, q =>
    if q = 0 then s
    else
      let l := fgk_leader s q
      let s1 := if l ≠ q ∧ l ≠ aget s.par q then fgk_swap s q l else s
      let s2 := { s1 with wt := s1.wt.setD q (aget s1.wt q + 1) }
      fgk_update fuel s2 (aget s2.par q)

/-- Modelled from the spec: the code of a node is the root-to-node path,
most-significant bit first; a bit is true when the step goes to a right
child. Collected by climbing parent links with fuel. -/
def fgk_path : Nat → FgkState → Nat → List Bool → List Bool
  | 0, _, _, acc => acc
  | fuel + 1, s, q, acc =>
    let pq := aget s.par q
    if pq = 0 then acc
    else fgk_path fuel s pq ((aget s.rch pq == q) :: acc)

/-- Code bits of the node q in the current tree. -/
def fgk_code_bits (s : FgkState) (q : Nat) : List Bool :=
  fgk_path fgk_cap s q []

/-- Modelled from the spec: on the first occurrence of a symbol the NYT leaf
spawns two children, a new NYT (left, lower number) and a leaf for the
symbol (right); both receive numbers below every existing node. -/
def fgk_spawn (s : FgkState) (sym : Nat) : FgkState × Nat :=
  let old := s.nyt
  let a := s.nofree
  let b := s.nofree + 1
  ({ s with
      lch := s.lch.setD old a
      rch := s.rch.setD old b
      par := (s.par.setD a old).setD b old
      num := (s.num.setD b s.nextNum).setD a (s.nextNum - 1)
      leafOf := s.leafOf.setD sym b
      nyt := a
      nofree := s.nofree + 2
      nextNum := s.nextNum - 2 }, b)

/-- Modelled from the spec: fgk_encode_symbol of adhfgk2.c. A seen symbol
emits the code of its leaf; an unseen one emits the code of the NYT leaf
followed by the fixed-width 8-bit symbol index (hsymbol_bit_size = 8).
Afterwards the weights on the leaf-to-root path are updated. -/
def fgk_encode_symbol (s : FgkState) (sym : Nat) : List Bool × FgkState :=
  let leaf := aget s.leafOf sym
  if leaf ≠ 0 then
    (fgk_code_bits s leaf, fgk_update fgk_cap s leaf)
  else
    let bits := fgk_code_bits s s.nyt ++ put_nbits sym 8
    let sp := fgk_spawn s sym
    (bits, fgk_update fgk_cap sp.1 sp.2)

/-- Hash-chain state of lzhash.c: head table indexed by hash value, and
next and previous links indexed by window position (none is LZ_NULL). -/
structure LZHash where
  head : Nat → Option Nat
  nxt : Nat → Option Nat
  prv : Nat → Option Nat

/-- Modelled from the spec: insert_lznode of lzhash.c per section 4.4: push
pos onto chain h; pos becomes head, the old head becomes next of pos, and
prev of the old head becomes pos. -/
def insert_lznode (s : LZHash) (h pos : Nat) : LZHash :=
  let old := s.head h
  let s1 : LZHash :=
    { head := fupd s.head h (some pos)
      nxt := fupd s.nxt pos old
      prv := fupd s.prv pos none }
  match old with
  | some q => { s1 with prv := fupd s1.prv q (some pos) }
  | none => s1

/-- Modelled from the spec: delete_lznode of lzhash.c per section 4.4:
unlink pos from chain h; if pos was the head, the head becomes its next. -/
def delete_lznode (s : LZHash) (h pos : Nat) : LZHash :=
  let nn := s.nxt pos
  let pp := s.prv pos
  let s1 : LZHash :=
    match pp with
    | some q => { s with nxt := fupd s.nxt q nn }
    | none => s
  let s2 : LZHash :=
    match nn with
    | some q => { s1 with prv := fupd s1.prv q pp }
    | none => s1
  let s3 : LZHash :=
    if s.head h = some pos then { s2 with head := fupd s2.head h nn } else s2
  { s3 with nxt := fupd s3.nxt pos none, prv := fupd s3.prv pos none }

/-- Empty chain state: all heads and links null. -/
def lz_empty : LZHash := ⟨fun _ => none, fun _ => none, fun _ => none⟩

/-- The 4-byte hash macro of lzhhf1.c lines 58-62: indices into the buffer
of size sz are reduced mod sz (the mask1 argument) and the combined value is
reduced mod 2^B (the mask2 argument, always win_MASK); hash_SHIFT is B-8. -/
def hash (B : Nat) (buf : Nat → Nat) (pos sz : Nat) : Nat :=
  ((buf (pos % sz) <<< (B - 8)) ^^^ (buf ((pos + 1) % sz) <<< 7) ^^^
    (buf ((pos + 2) % sz) <<< 4) ^^^ buf ((pos + 3) % sz)) % 2 ^ B

/-- Initialization of the search list, lzhhf1.c lines 178-182: every window
position i is inserted under the hash of the (zero-filled) window at i. -/
def init_lz (B : Nat) (win : Nat → Nat) : LZHash :=
  (List.range (2 ^ B)).foldl (fun s i => insert_lznode s (hash B win i (2 ^ B)) i) lz_empty

/-- dpos_t of lzhhf1.c lines 70-72: a match position and length. -/
structure dpos_t where
  pos : Nat
  len : Nat
deriving DecidableEq

/-- Encoder state: the file-scope state of lzhhf1.c gathered into one
record. num_POS_BITS is B; the window has size 2^B and the look-ahead
buffer size 2^B / 2. input models the bytes not yet read from the input
file and out is the bitstream emitted so far. -/
structure EncSt where
  num_POS_BITS : Nat
  win_buf : Nat → Nat
  pattern : Nat → Nat
  lz : LZHash
  win_cnt : Nat
  pat_cnt : Nat
  buf_cnt : Nat
  mtf_list : List Nat
  fgk : FgkState
  input : List Nat
  out : List Bool

/-- Result of the search walk: the best match dpos together with the loop
counters m and n of the C function and two observer counters: v counts
every visited chain node and a counts every accepted (recorded) candidate.
v and a are instrumentation only; they do not influence the walk. -/
structure SearchSt where
  d : dpos_t
  m : Nat
  n : Nat
  v : Nat
  a : Nat
deriving DecidableEq

/-- Context verification of search, lzhhf1.c lines 298-305: compare the
first dlen+1 bytes of the look-ahead at pcnt against the window at i from
right to left (offset k first, then k-1, down to 0), stopping at the first
mismatch. -/
def ctx_verify (W P : Nat) (w p : Nat → Nat) (pcnt i : Nat) : Nat → Bool
  | 0 => p (pcnt % P) == w (i % W)
  | k + 1 => (p ((pcnt + (k + 1)) % P) == w ((i + (k + 1)) % W)) &&
      ctx_verify W P w p pcnt i k

/-- Suffix extension of search, lzhhf1.c lines 308-312: starting from offset
k, advance while the look-ahead byte equals the window byte and k is below
bufcnt. The fuel argument bounds the iterations; callers pass bufcnt, which
is enough since k grows by one per step and stops at bufcnt. -/
def extend_k (W P : Nat) (w p : Nat → Nat) (pcnt bufcnt i : Nat) : Nat → Nat → Nat
  | k, 0 => k
  | k, fuel + 1 =>
    if k < bufcnt then
      if p ((pcnt + k) % P) == w ((i + k) % W) then
        extend_k W P w p pcnt bufcnt i (k + 1) fuel
      else k
    else k

/-- The chain walk of search, lzhhf1.c lines 282-327. The fuel argument
stands for FAR_LIST - m and decreases exactly when the C code increments m
at the skip_search label, so the fuel-0 case is unreachable from the entry
point; the break tests mirror the source: a full match (k = bufcnt) breaks
without touching n; otherwise n is incremented and tested against NMATCH;
then m is incremented and tested against FAR_LIST. -/
def search_loop (W P : Nat) (w p : Nat → Nat) (nxt : Nat → Option Nat)
    (pcnt bufcnt : Nat) : Nat → Option Nat → SearchSt → SearchSt
  | _, none, st => st
  | 0, some _, st => st
  | fuel + 1, some i, st =>
    let st1 : SearchSt := { st with v := st.v + 1 }
    if ctx_verify W P w p pcnt i st1.d.len then
      let k := extend_k W P w p pcnt bufcnt i (st1.d.len + 1) bufcnt
      let st2 : SearchSt := { st1 with d := ⟨i, k⟩, a := st1.a + 1 }
      if k = bufcnt then st2
      else if st2.n + 1 = NMATCH then { st2 with n := st2.n + 1 }
      else if st2.m + 1 = FAR_LIST then { st2 with n := st2.n + 1, m := st2.m + 1 }
      else search_loop W P w p nxt pcnt bufcnt fuel (nxt i)
        { st2 with n := st2.n + 1, m := st2.m + 1 }
    else
      if st1.m + 1 = FAR_LIST then { st1 with m := st1.m + 1 }
      else search_loop W P w p nxt pcnt bufcnt fuel (nxt i) { st1 with m := st1.m + 1 }

/-- search of lzhhf1.c lines 274-330: start at the chain head for the hash
of the look-ahead at pat_cnt and walk it, but only when buf_cnt > 1. -/
def search (s : EncSt) : SearchSt :=
  let W := 2 ^ s.num_POS_BITS
  let P := W / 2
  let i0 := s.lz.head (hash s.num_POS_BITS s.pattern s.pat_cnt P)
  if 1 < s.buf_cnt then
    search_loop W P s.win_buf s.pattern s.lz.nxt s.pat_cnt s.buf_cnt FAR_LIST i0
      ⟨⟨0, 0⟩, 0, 0, 0, 0⟩
  else ⟨⟨0, 0⟩, 0, 0, 0, 0⟩

/-- Observable events of the sliding step of put_codes: a chain deletion at
a hash and position, a window byte write at an index, and a chain insertion
at a hash and position, in the order the source performs them. -/
inductive SlideEv : Type
  | del : Nat → Nat → SlideEv
  | wr : Nat → Nat → SlideEv
  | ins : Nat → Nat → SlideEv
deriving DecidableEq

/-- The sliding part of put_codes, lzhhf1.c lines 381-402: from the leftmost
affected index k0 = win_cnt - (HASH_BYTES_N-1) (wrapped mod the window size
when negative), first delete the len+HASH_BYTES_N-1 positions from their
chains (hashes taken over the old window), then copy len bytes from the
look-ahead into the window (the source loop runs the indices downward), then
re-insert the same positions (hashes taken over the updated window). The
returned trace records every operation in execution order. -/
def slide_window (B : Nat) (lz : LZHash) (win pat : Nat → Nat) (wc pc len : Nat) :
    LZHash × (Nat → Nat) × List SlideEv :=
  let W := 2 ^ B
  let P := W / 2
  let k0 := if wc < HASH_BYTES_N - 1 then W + wc - (HASH_BYTES_N - 1)
    else wc - (HASH_BYTES_N - 1)
  let s1 := (List.range (len + (HASH_BYTES_N - 1))).foldl
    (fun ac i =>
      (delete_lznode ac.1 (hash B win (k0 + i) W) ((k0 + i) % W),
        ac.2 ++ [SlideEv.del (hash B win (k0 + i) W) ((k0 + i) % W)]))
    (lz, ([] : List SlideEv))
  let s2 := ((List.range len).reverse).foldl
    (fun ac i =>
      (fupd ac.1 ((wc + i) % W) (pat ((pc + i) % P)),
        ac.2 ++ [SlideEv.wr ((wc + i) % W) (pat ((pc + i) % P))]))
    (win, s1.2)
  let s3 := (List.range (len + (HASH_BYTES_N - 1))).foldl
    (fun ac i =>
      (insert_lznode ac.1 (hash B s2.1 (k0 + i) W) ((k0 + i) % W),
        ac.2 ++ [SlideEv.ins (hash B s2.1 (k0 + i) W) ((k0 + i) % W)]))
    (s1.1, s2.2)
  (s3.1, s2.1, s3.2)

/-- The refill of put_codes, lzhhf1.c lines 404-411: read up to len bytes
from the remaining input into the look-ahead at pat_cnt onward (mod its
size); returns the updated buffer, the count actually read, and the rest of
the input. -/
def refill (P : Nat) (pat : Nat → Nat) (pc len : Nat) (input : List Nat) :
    (Nat → Nat) × Nat × List Nat :=
  let got := min len input.length
  ((List.range got).foldl (fun f i => fupd f ((pc + i) % P) (input.getD i 0)) pat,
    got, input.drop got)

/-- put_codes of lzhhf1.c lines 351-417: emit the folded-unary length code
when the match length exceeds MIN_LEN; emit the position in num_POS_BITS
bits when the length is at least MIN_LEN, and otherwise set the step length
to 1 and emit the FGK code of the MTF rank of the look-ahead byte at
pat_cnt; then slide the window (delete, copy, re-insert), refill the
look-ahead from the input, and update the three counters. -/
def put_codes (d0 : dpos_t) (s : EncSt) : EncSt :=
  let B := s.num_POS_BITS
  let W := 2 ^ B
  let P := W / 2
  let lenBits : List Bool := if MIN_LEN < d0.len then ufc_len_bits d0.len else []
  let lit : List Bool × List Nat × FgkState :=
    if MIN_LEN ≤ d0.len then (put_nbits d0.pos B, s.mtf_list, s.fgk)
    else
      let r := mtf s.mtf_list (s.pattern s.pat_cnt)
      let fb := fgk_encode_symbol s.fgk r.1
      (fb.1, r.2, fb.2)
  let len : Nat := if MIN_LEN ≤ d0.len then d0.len else 1
  let sl := slide_window B s.lz s.win_buf s.pattern s.win_cnt s.pat_cnt len
  let rf := refill P s.pattern s.pat_cnt len s.input
  { s with
    lz := sl.1
    win_buf := sl.2.1
    pattern := rf.1
    input := rf.2.2
    buf_cnt := s.buf_cnt - (len - rf.2.1)
    win_cnt := (s.win_cnt + len) % W
    pat_cnt := (s.pat_cnt + len) % P
    mtf_list := lit.2.1
    fgk := lit.2.2
    out := s.out ++ lenBits ++ lit.1 }

/-- Framing bits emitted by the main loop, lzhhf1.c lines 203-214: one 1 bit
for a long match, 0 then 1 for an exact MIN_LEN match, 0 then 0 otherwise. -/
def framing_bits (l : Nat) : List Bool :=
  if MIN_LEN < l then [true]
  else if l = MIN_LEN then [false, true]
  else [false, false]

/-- One iteration of the compression loop, lzhhf1.c lines 200-218: search,
then the framing bits, then put_codes. -/
def encode_step (s : EncSt) : EncSt :=
  let d := (search s).d
  put_codes d { s with out := s.out ++ framing_bits d.len }

/-- The compression loop, lzhhf1.c line 200: repeat encode_step while
buf_cnt is positive; fuel bounds the number of iterations. -/
def compress_run : Nat → EncSt → EncSt
  | 0, s => s
  | fuel + 1, s => if 0 < s.buf_cnt then compress_run fuel (encode_step s) else s

/-- Termination measure of the loop: bytes still unread plus bytes pending
in the look-ahead buffer. -/
def measureE (s : EncSt) : Nat := s.input.length + s.buf_cnt

/-- The step length put_codes uses for the slide and the counters: the match
length when it is at least MIN_LEN, else 1 (lzhhf1.c line 374). -/
def step_len (s : EncSt) : Nat :=
  if MIN_LEN ≤ (search s).d.len then (search s).d.len else 1

/-- Abstraction of the externally visible branching of main and usage,
lzhhf1.c lines 91-134 and 160-175 and 241-252: argc, whether argv 1 starts
with a dash, the atoi result of its tail (0 when unparseable), and the
success of the two fopen calls and of the three allocations. -/
structure CliEnv where
  argc : Nat
  dashOpt : Bool
  optVal : Nat
  openInOk : Bool
  openOutOk : Bool
  allocWinOk : Bool
  allocPatOk : Bool
  allocHashOk : Bool

/-- The process exit status of main as a function of the environment,
translated from lzhhf1.c: usage() ends with exit(0) (line 95); a failed
fopen of either file returns 0 from main (lines 127-134); a failed
allocation jumps to halt_prog and returns 0 (lines 160-175, 241-252); and
the successful path returns 0 (line 252). -/
def main_exit_code (e : CliEnv) : Nat :=
  if e.argc = 4 ∧ e.dashOpt = false then 0
  else if e.argc = 4 ∧ e.dashOpt = true ∧ e.optVal = 0 then 0
  else if ¬(e.argc = 3 ∨ e.argc = 4) then 0
  else if e.openInOk = false then 0
  else if e.openOutOk = false then 0
  else if e.allocWinOk = false then 0
  else if e.allocPatOk = false then 0
  else if e.allocHashOk = false then 0
  else 0

/-- The all-zero byte function: the zero-filled window, and a look-ahead
holding zero bytes. -/
def zero_fn : Nat → Nat := fun _ => 0

/-- A chain state with the single position 0 on chain 0. -/
def lz_one : LZHash :=
  { head := fupd (fun _ => none) 0 (some 0)
    nxt := fun _ => none
    prv := fun _ => none }

/-- A small concrete encoder state with one pending byte (a literal step). -/
def s_lit : EncSt :=
  { num_POS_BITS := 12
    win_buf := zero_fn
    pattern := zero_fn
    lz := lz_empty
    win_cnt := 0
    pat_cnt := 0
    buf_cnt := 1
    mtf_list := mtf_first
    fgk := fgk_init_first_node
    input := []
    out := [] }

/-- A small concrete encoder state in which the search finds a length-4
match at position 0 of the all-zero window. -/
def s_match : EncSt := { s_lit with lz := lz_one, buf_cnt := 4 }

/-- The state of concrete scenario 4 of the specification: B = 17, the
window zero-initialized with the full chain setup of main, and five zero
bytes already read into the look-ahead (so the remaining input is empty). -/
def s_five : EncSt :=
  { num_POS_BITS := 17
    win_buf := zero_fn
    pattern := zero_fn
    lz := init_lz 17 zero_fn
    win_cnt := 0
    pat_cnt := 0
    buf_cnt := 5
    mtf_list := mtf_first
    fgk := fgk_init_first_node
    input := []
    out := [] }

/-- A concrete match descriptor of length 6 for instantiations. -/
def d6 : dpos_t := ⟨0, 6⟩

/-- Statement of claim C2 over the emission of put_codes: the length and
position codes and their exact bit counts. -/
def len_pos_code_prop (d : dpos_t) (s : EncSt) : Prop :=
  (put_codes d s).out = s.out ++
      (if MIN_LEN < d.len then ufc_len_bits d.len else []) ++
      put_nbits d.pos s.num_POS_BITS
  ∧ ufc_len_bits d.len =
      List.replicate ((d.len - (MIN_LEN + 1)) >>> MFOLD) true ++
        put_nbits (((d.len - (MIN_LEN + 1)) % (1 <<< MFOLD)) <<< 1) (MFOLD + 1)
  ∧ (ufc_len_bits d.len).length = ((d.len - (MIN_LEN + 1)) >>> MFOLD) + 3
  ∧ (put_nbits d.pos s.num_POS_BITS).length = s.num_POS_BITS

/-- Statement of claim C5 over the trace of slide_window: the deletions of
the len + HN - 1 positions from k0 (with their old hashes) come first, then
the len window writes at offsets wc .. wc+len-1 (in the downward order of
the source loop, a permutation of the forward order), then the
re-insertions of the same positions under their new hashes. -/
def slide_order_prop (B : Nat) (lz : LZHash) (win pat : Nat → Nat) (wc pc len : Nat) : Prop :=
  let W := 2 ^ B
  let P := W / 2
  let k0 := (wc + W - (HASH_BYTES_N - 1)) % W
  let win2 := (slide_window B lz win pat wc pc len).2.1
  (slide_window B lz win pat wc pc len).2.2 =
      (List.range (len + (HASH_BYTES_N - 1))).map
        (fun i => SlideEv.del (hash B win (k0 + i) W) ((k0 + i) % W)) ++
      ((List.range len).map
        (fun i => SlideEv.wr ((wc + i) % W) (pat ((pc + i) % P)))).reverse ++
      (List.range (len + (HASH_BYTES_N - 1))).map
        (fun i => SlideEv.ins (hash B win2 (k0 + i) W) ((k0 + i) % W))
  ∧ (((List.range len).map
        (fun i => SlideEv.wr ((wc + i) % W) (pat ((pc + i) % P)))).reverse).Perm
      ((List.range len).map (fun i => SlideEv.wr ((wc + i) % W) (pat ((pc + i) % P))))
  ∧ ∀ (d0 : dpos_t) (s : EncSt), (put_codes d0 s).lz =
      (slide_window s.num_POS_BITS s.lz s.win_buf s.pattern s.win_cnt s.pat_cnt
        (if MIN_LEN ≤ d0.len then d0.len else 1)).1

lemma put_nbits_length (v n : Nat) : (put_nbits v n).length = n := by
  simp [put_nbits]

lemma ufc_len_bits_length (l : Nat) :
    (ufc_len_bits l).length = ((l - (MIN_LEN + 1)) >>> MFOLD) + 3 := by
  simp [ufc_len_bits, put_nbits_length, MFOLD]

/-- Emission shape of put_codes: the appended bits are the optional folded
unary length code followed by either the position field or the FGK code of
the MTF rank of the literal byte. -/
lemma put_codes_out (d : dpos_t) (s : EncSt) :
    (put_codes d s).out = s.out ++
      (if MIN_LEN < d.len then ufc_len_bits d.len else []) ++
      (if MIN_LEN ≤ d.len then put_nbits d.pos s.num_POS_BITS
       else (fgk_encode_symbol s.fgk (mtf s.mtf_list (s.pattern s.pat_cnt)).1).1) := by
  by_cases h2 : MIN_LEN ≤ d.len
  · by_cases h1 : MIN_LEN < d.len
    · simp [put_codes, h1, h2]
    · simp [put_codes, h1, h2]
  · have h1 : ¬ MIN_LEN < d.len := fun hc => h2 (le_of_lt hc)
    simp [put_codes, h1, h2]

/-- Claim C1: for every encoder step, the bitstream framing is: match length
above MIN_LEN emits a 1 bit, then the folded-unary length code and the B-bit
position; length exactly MIN_LEN emits 0 then 1 and the B-bit position only;
a shorter length emits 0 then 0 and the FGK code of the MTF rank of the
literal byte. -/
theorem c1_step_framing (s : EncSt) :
    (encode_step s).out = s.out ++
      (if MIN_LEN < (search s).d.len then
        true :: (ufc_len_bits (search s).d.len ++ put_nbits (search s).d.pos s.num_POS_BITS)
      else if (search s).d.len = MIN_LEN then
        false :: true :: put_nbits (search s).d.pos s.num_POS_BITS
      else
        false :: false ::
          (fgk_encode_symbol s.fgk (mtf s.mtf_list (s.pattern s.pat_cnt)).1).1) := by
  simp only [encode_step]
  rw [put_codes_out]
  by_cases h1 : MIN_LEN < (search s).d.len
  · have h2 : MIN_LEN ≤ (search s).d.len := le_of_lt h1
    simp [framing_bits, h1, h2]
  · by_cases h0 : (search s).d.len = MIN_LEN
    · have h2 : MIN_LEN ≤ (search s).d.len := le_of_eq h0.symm
      simp [framing_bits, h1, h0, h2]
    · have h2 : ¬ MIN_LEN ≤ (search s).d.len := by
        rcases lt_or_ge (search s).d.len MIN_LEN with hlt | hge
        · exact not_le_of_lt hlt
        · exact absurd (lt_of_le_of_ne hge (fun he => h0 he.symm)) h1
      simp [framing_bits, h1, h0, h2]

/-- Claim C2: for every match of length above MIN_LEN, with code = len - 5,
the encoder emits code >>> 2 one bits and then exactly 3 bits of value
(code mod 4) <<< 1, so the folded-unary code occupies (code >>> 2) + 3
bits; and for every match of length at least MIN_LEN the position is
emitted in exactly num_POS_BITS bits. -/
theorem c2_length_position_codes (d : dpos_t) (s : EncSt) (h : MIN_LEN ≤ d.len) :
    len_pos_code_prop d s := by
  refine ⟨?_, rfl, ufc_len_bits_length _, put_nbits_length _ _⟩
  rw [put_codes_out]
  simp [h]

theorem c2_length_position_codes_witness :
    MIN_LEN ≤ d6.len ∧ len_pos_code_prop d6 s_lit :=
  ⟨by decide, c2_length_position_codes d6 s_lit (by decide)⟩

/-- Claim C3 counterexample: the claim asserts a nonzero exit status on the
failure paths, but the source exits 0 on every one of them: an fopen
failure of the input file, an allocation failure of the window buffer, a
bad argument count, and an unparseable -N option all yield status 0. -/
theorem c3_exit_status_cex :
    main_exit_code ⟨3, false, 0, false, true, true, true, true⟩ = 0 ∧
    main_exit_code ⟨3, false, 0, true, true, false, true, true⟩ = 0 ∧
    main_exit_code ⟨2, false, 0, true, true, true, true, true⟩ = 0 ∧
    main_exit_code ⟨4, true, 0, true, true, true, true, true⟩ = 0 := by
  refine ⟨?_, ?_, ?_, ?_⟩ <;> decide

/-- Claim C3 (amended): the process exit status is 0 on every path: success,
I/O failure, allocation failure, and CLI misuse (usage calls exit with 0 and
main returns 0 from every error branch). -/
theorem c3_exit_zero_everywhere (e : CliEnv) : main_exit_code e = 0 := by
  simp only [main_exit_code]
  split_ifs <;> rfl

/-- Claim C6: after every call to put_codes the counters satisfy
win_cnt < W and pat_cnt < P with W = 2 ^ num_POS_BITS and P = W / 2 (both
are Nat, so nonnegativity is inherent). -/
theorem c6_counter_bounds (d : dpos_t) (s : EncSt)
    (h1 : 12 ≤ s.num_POS_BITS) (h2 : s.num_POS_BITS ≤ 20) :
    (put_codes d s).win_cnt < 2 ^ s.num_POS_BITS ∧
    (put_codes d s).pat_cnt < 2 ^ s.num_POS_BITS / 2 := by
  have hW : 0 < 2 ^ s.num_POS_BITS := Nat.pow_pos (by norm_num)
  have hP : 0 < 2 ^ s.num_POS_BITS / 2 := by
    have h2' : (2 : Nat) ≤ 2 ^ s.num_POS_BITS := by
      calc (2 : Nat) = 2 ^ 1 := (pow_one 2).symm
        _ ≤ 2 ^ s.num_POS_BITS := Nat.pow_le_pow_right (by norm_num) (by omega)
    exact Nat.div_pos h2' (by norm_num)
  constructor
  · simp only [put_codes]
    exact Nat.mod_lt _ hW
  · simp only [put_codes]
    exact Nat.mod_lt _ hP

theorem c6_counter_bounds_witness :
    12 ≤ s_lit.num_POS_BITS ∧ s_lit.num_POS_BITS ≤ 20 ∧
      ((put_codes d6 s_lit).win_cnt < 2 ^ s_lit.num_POS_BITS ∧
       (put_codes d6 s_lit).pat_cnt < 2 ^ s_lit.num_POS_BITS / 2) :=
  ⟨by decide, by decide, c6_counter_bounds d6 s_lit (by decide) (by decide)⟩

/-- Claim C7: when a step begins with buf_cnt = 1 the chain walk is skipped
(no chain node is visited), search returns length 0 at position 0, and the
step emits a literal: framing 0 0 followed by the FGK code of the MTF rank
of the look-ahead byte. -/
theorem c7_single_byte_literal (s : EncSt) (h : s.buf_cnt = 1) :
    (search s).d.pos = 0 ∧ (search s).d.len = 0 ∧ (search s).v = 0 ∧
    (encode_step s).out = s.out ++ false :: false ::
      (fgk_encode_symbol s.fgk (mtf s.mtf_list (s.pattern s.pat_cnt)).1).1 := by
  have hs : search s = ⟨⟨0, 0⟩, 0, 0, 0, 0⟩ := by
    simp [search, h]
  refine ⟨by rw [hs], by rw [hs], by rw [hs], ?_⟩
  simp only [encode_step, hs]
  rw [put_codes_out]
  simp [framing_bits, MIN_LEN]

theorem c7_single_byte_literal_witness :
    s_lit.buf_cnt = 1 ∧
      ((search s_lit).d.pos = 0 ∧ (search s_lit).d.len = 0 ∧ (search s_lit).v = 0 ∧
       (encode_step s_lit).out = s_lit.out ++ false :: false ::
         (fgk_encode_symbol s_lit.fgk
           (mtf s_lit.mtf_list (s_lit.pattern s_lit.pat_cnt)).1).1) :=
  ⟨rfl, c7_single_byte_literal s_lit rfl⟩

/-- Claim C9: a step whose selected match length is at least MIN_LEN leaves
the MTF list and the FGK tree unchanged; mtf and fgk_encode_symbol are
applied only on literal steps. -/
theorem c9_match_preserves_entropy (s : EncSt) (h : MIN_LEN ≤ (search s).d.len) :
    (encode_step s).mtf_list = s.mtf_list ∧ (encode_step s).fgk = s.fgk := by
  constructor <;> simp [encode_step, put_codes, h]

theorem c9_match_preserves_entropy_witness :
    MIN_LEN ≤ (search s_match).d.len ∧
      ((encode_step s_match).mtf_list = s_match.mtf_list ∧
       (encode_step s_match).fgk = s_match.fgk) :=
  ⟨by decide, c9_match_preserves_entropy s_match (by decide)⟩

/-- Invariant of the chain walk: starting from counters that satisfy v = m,
a = n, n < NMATCH and m + fuel = FAR_LIST, the walk returns having visited
at most FAR_LIST nodes and accepted at most NMATCH candidates. -/
lemma search_loop_caps (W P : Nat) (w p : Nat → Nat) (nxt : Nat → Option Nat)
    (pcnt bufcnt : Nat) :
    ∀ (fuel : Nat) (i : Option Nat) (st : SearchSt),
      st.v = st.m → st.a = st.n → st.n < NMATCH → st.m + fuel = FAR_LIST →
      (search_loop W P w p nxt pcnt bufcnt fuel i st).v ≤ FAR_LIST ∧
      (search_loop W P w p nxt pcnt bufcnt fuel i st).a ≤ NMATCH := by
  intro fuel
  induction fuel with
  | zero =>
    intro i st h1 h2 h3 h4
    cases i <;> simp [search_loop] <;> omega
  | succ fuel ih =>
    intro i st h1 h2 h3 h4
    cases i with
    | none => simp [search_loop]; omega
    | some j =>
      simp only [search_loop]
      split_ifs with hctx hk hn hm hm2
      · simp; omega
      · simp; omega
      · simp; omega
      · refine ih (nxt j) _ ?_ ?_ ?_ ?_ <;> simp <;> omega
      · simp; omega
      · refine ih (nxt j) _ ?_ ?_ ?_ ?_ <;> simp <;> omega

/-- Claim C4: for every call to search with buf_cnt > 1, the chain walk
visits at most FAR_LIST = 4096 chain nodes in total and accepts at most
NMATCH = 196 candidates that extend the current best; the walk stops as
soon as either counter cap fires or a candidate of length buf_cnt is found
(the break branches of search_loop). -/
theorem c4_search_caps (s : EncSt) (h : 1 < s.buf_cnt) :
    (search s).v ≤ FAR_LIST ∧ (search s).a ≤ NMATCH := by
  simp only [search, if_pos h]
  exact search_loop_caps _ _ _ _ _ _ _ FAR_LIST _ _ rfl rfl (by decide) (by simp)

theorem c4_search_caps_witness :
    1 < s_match.buf_cnt ∧
      ((search s_match).v ≤ FAR_LIST ∧ (search s_match).a ≤ NMATCH) :=
  ⟨by decide, c4_search_caps s_match (by decide)⟩

/-- Projection of one encode_step onto the two quantities of the
termination measure. -/
lemma encode_step_buf_input (s : EncSt) :
    (encode_step s).buf_cnt =
        s.buf_cnt - (step_len s - min (step_len s) s.input.length) ∧
    (encode_step s).input.length = s.input.length - min (step_len s) s.input.length := by
  constructor <;> simp [encode_step, put_codes, refill, step_len]

/-- Every step advances by at least one byte: a literal step forces the
length to 1. -/
lemma step_len_pos (s : EncSt) : 1 ≤ step_len s := by
  simp only [step_len]
  split_ifs with h
  · exact le_trans (by norm_num [MIN_LEN]) h
  · exact le_refl 1

/-- One step strictly decreases the number of unread input bytes plus the
pending look-ahead bytes. -/
lemma measure_dec (s : EncSt) (h : 0 < s.buf_cnt) :
    measureE (encode_step s) < measureE s := by
  obtain ⟨hb, hi⟩ := encode_step_buf_input s
  have hl := step_len_pos s
  simp only [measureE, hb, hi]
  rcases Nat.le_total (step_len s) s.input.length with hc | hc
  · rw [min_eq_left hc]; omega
  · rw [min_eq_right hc]; omega

/-- Enough fuel drives the loop to an empty look-ahead. -/
lemma run_reaches : ∀ (fuel : Nat) (s : EncSt),
    measureE s ≤ fuel → (compress_run fuel s).buf_cnt = 0
  | 0, s, h => by
    have hb : s.buf_cnt = 0 := by simp [measureE] at h; omega
    simpa [compress_run] using hb
  | fuel + 1, s, h => by
    by_cases hb : 0 < s.buf_cnt
    · have hd := measure_dec s hb
      have hle : measureE (encode_step s) ≤ fuel := by omega
      simpa [compress_run, hb] using run_reaches fuel (encode_step s) hle
    · simp [compress_run, hb]
      omega

/-- Claim C10: for every finite input the compression loop terminates: each
step has length at least 1, each step strictly decreases the measure of
remaining input plus look-ahead bytes, and running the loop with fuel equal
to that measure empties the look-ahead (buf_cnt reaches 0). -/
theorem c10_loop_terminates (s : EncSt) (h : 0 < s.buf_cnt) :
    1 ≤ step_len s ∧ measureE (encode_step s) < measureE s ∧
      (compress_run (measureE s) s).buf_cnt = 0 :=
  ⟨step_len_pos s, measure_dec s h, run_reaches (measureE s) s (le_refl _)⟩

theorem c10_loop_terminates_witness :
    0 < s_match.buf_cnt ∧
      (1 ≤ step_len s_match ∧ measureE (encode_step s_match) < measureE s_match ∧
       (compress_run (measureE s_match) s_match).buf_cnt = 0) :=
  ⟨by decide, c10_loop_terminates s_match (by decide)⟩

/-- A fold that threads a state and appends one event per element, where
the event depends only on the element, equals the plain state fold paired
with the mapped event list. -/
lemma foldl_pair_trace {σ ε α : Type} (f : σ → α → σ) (g : α → ε) :
    ∀ (l : List α) (s0 : σ) (t0 : List ε),
      l.foldl (fun ac a => (f ac.1 a, ac.2 ++ [g a])) (s0, t0) =
        (l.foldl f s0, t0 ++ l.map g)
  | [], s0, t0 => by simp
  | a :: l, s0, t0 => by
    simpa [List.foldl_cons] using foldl_pair_trace f g l (f s0 a) (t0 ++ [g a])

/-- Deletion loop of the slide with its trace, as a plain fold paired with
the mapped event list. -/
lemma del_loop_trace (B W : Nat) (win : Nat → Nat) (k0 : Nat) :
    ∀ (l : List Nat) (z : LZHash) (t0 : List SlideEv),
      l.foldl (fun ac i =>
          (delete_lznode ac.1 (hash B win (k0 + i) W) ((k0 + i) % W),
            ac.2 ++ [SlideEv.del (hash B win (k0 + i) W) ((k0 + i) % W)])) (z, t0) =
        (l.foldl (fun z2 i => delete_lznode z2 (hash B win (k0 + i) W) ((k0 + i) % W)) z,
          t0 ++ l.map (fun i => SlideEv.del (hash B win (k0 + i) W) ((k0 + i) % W))) :=
  foldl_pair_trace
    (fun z2 i => delete_lznode z2 (hash B win (k0 + i) W) ((k0 + i) % W))
    (fun i => SlideEv.del (hash B win (k0 + i) W) ((k0 + i) % W))

/-- Write loop of the slide with its trace. -/
lemma wr_loop_trace (W P : Nat) (pat : Nat → Nat) (wc pc : Nat) :
    ∀ (l : List Nat) (z : Nat → Nat) (t0 : List SlideEv),
      l.foldl (fun ac i =>
          (fupd ac.1 ((wc + i) % W) (pat ((pc + i) % P)),
            ac.2 ++ [SlideEv.wr ((wc + i) % W) (pat ((pc + i) % P))])) (z, t0) =
        (l.foldl (fun z2 i => fupd z2 ((wc + i) % W) (pat ((pc + i) % P))) z,
          t0 ++ l.map (fun i => SlideEv.wr ((wc + i) % W) (pat ((pc + i) % P)))) :=
  foldl_pair_trace
    (fun z2 i => fupd z2 ((wc + i) % W) (pat ((pc + i) % P)))
    (fun i => SlideEv.wr ((wc + i) % W) (pat ((pc + i) % P)))

/-- Insertion loop of the slide with its trace. -/
lemma ins_loop_trace (B W : Nat) (win2 : Nat → Nat) (k0 : Nat) :
    ∀ (l : List Nat) (z : LZHash) (t0 : List SlideEv),
      l.foldl (fun ac i =>
          (insert_lznode ac.1 (hash B win2 (k0 + i) W) ((k0 + i) % W),
            ac.2 ++ [SlideEv.ins (hash B win2 (k0 + i) W) ((k0 + i) % W)])) (z, t0) =
        (l.foldl (fun z2 i => insert_lznode z2 (hash B win2 (k0 + i) W) ((k0 + i) % W)) z,
          t0 ++ l.map (fun i => SlideEv.ins (hash B win2 (k0 + i) W) ((k0 + i) % W))) :=
  foldl_pair_trace
    (fun z2 i => insert_lznode z2 (hash B win2 (k0 + i) W) ((k0 + i) % W))
    (fun i => SlideEv.ins (hash B win2 (k0 + i) W) ((k0 + i) % W))

/-- Claim C5: for every step with emitted length len, the slide of put_codes
first deletes the len + HN - 1 positions k0 .. k0 + len + HN - 2 (mod W,
with k0 = (win_cnt - 3) mod W) from their chains, then copies exactly len
bytes from the look-ahead to the window at offsets win_cnt .. win_cnt+len-1,
then re-inserts the same positions under their new hashes, in that order. -/
theorem c5_slide_order (B : Nat) (lz : LZHash) (win pat : Nat → Nat) (wc pc len : Nat)
    (hB : 12 ≤ B) (hw : wc < 2 ^ B) : slide_order_prop B lz win pat wc pc len := by
  have hW : 4 ≤ 2 ^ B := by
    calc (4 : Nat) = 2 ^ 2 := by norm_num
      _ ≤ 2 ^ B := Nat.pow_le_pow_right (by norm_num) (by omega)
  have hk0 : (if wc < HASH_BYTES_N - 1 then 2 ^ B + wc - (HASH_BYTES_N - 1)
      else wc - (HASH_BYTES_N - 1)) = (wc + 2 ^ B - (HASH_BYTES_N - 1)) % 2 ^ B := by
    simp only [HASH_BYTES_N]
    split_ifs with h
    · rw [Nat.mod_eq_of_lt (by omega)]
      omega
    · have he : wc + 2 ^ B - 3 = (wc - 3) + 2 ^ B := by omega
      rw [he, Nat.add_mod_right, Nat.mod_eq_of_lt (by omega)]
  refine ⟨?_, ?_, ?_⟩
  · show (slide_window B lz win pat wc pc len).2.2 = _
    simp only [slide_window, hk0]
    rw [del_loop_trace, wr_loop_trace, ins_loop_trace]
    simp [List.map_reverse, List.append_assoc]
  · exact List.reverse_perm _
  · intro d0 s
    rfl

theorem c5_slide_order_witness :
    12 ≤ 12 ∧ 0 < 2 ^ 12 ∧ slide_order_prop 12 lz_empty zero_fn zero_fn 0 0 1 :=
  ⟨by decide, by decide,
    c5_slide_order 12 lz_empty zero_fn zero_fn 0 0 1 (by decide) (by decide)⟩

/-- Inserting a position makes it the head of its chain. -/
lemma insert_lznode_head (s : LZHash) (h pos : Nat) :
    (insert_lznode s h pos).head h = some pos := by
  cases ho : s.head h <;> simp [insert_lznode, ho, fupd]

/-- The 4-byte hash of an all-zero buffer is 0 at every position. -/
lemma hash_zero_fn (B pos sz : Nat) : hash B zero_fn pos sz = 0 := by
  simp [hash, zero_fn]

/-- After the eager chain initialization of main over the zero-filled
window, the head of chain 0 is the last inserted position, 2 ^ B - 1. -/
lemma init_lz_head_zero (B : Nat) :
    (init_lz B zero_fn).head 0 = some (2 ^ B - 1) := by
  have h1 : 0 < 2 ^ B := Nat.pow_pos (by norm_num)
  obtain ⟨m, hm⟩ : ∃ m, 2 ^ B = m + 1 := ⟨2 ^ B - 1, by omega⟩
  unfold init_lz
  rw [hm, List.range_succ, List.foldl_append]
  simp only [List.foldl_cons, List.foldl_nil, hash_zero_fn]
  rw [insert_lznode_head]
  congr 1

/-- Search outcome on a window of zeros with five zero look-ahead bytes and
B = 17, for any chain state whose chain 0 starts at position 2 ^ 17 - 1: the
very first candidate survives the context check, extends to the full
look-ahead length 5, and the walk breaks at once. -/
lemma search_zero_five (L : LZHash) (hL : L.head 0 = some (2 ^ 17 - 1)) :
    search { num_POS_BITS := 17, win_buf := zero_fn, pattern := zero_fn, lz := L,
             win_cnt := 0, pat_cnt := 0, buf_cnt := 5, mtf_list := mtf_first,
             fgk := fgk_init_first_node, input := [], out := [] } =
      ⟨⟨2 ^ 17 - 1, 5⟩, 0, 0, 1, 1⟩ := by
  simp only [search]
  rw [hash_zero_fn, hL]
  rw [if_pos (by norm_num)]
  rfl

/-- Claim C8: with B = 17 and the input consisting of five zero bytes, the
first step finds a match of length 5 against the zero-initialized window
(at the chain head 2 ^ 17 - 1) and emits framing bit 1, the folded-unary
code of 0 (no one bits, then the 3-bit field 000), and the matched position
in 17 bits. -/
theorem c8_five_zero_bytes :
    (search s_five).d.pos = 2 ^ 17 - 1 ∧ (search s_five).d.len = 5 ∧
    (encode_step s_five).out =
      true :: (ufc_len_bits 5 ++ put_nbits (2 ^ 17 - 1) 17) ∧
    ufc_len_bits 5 = [false, false, false] ∧
    (put_nbits (2 ^ 17 - 1) 17).length = 17 := by
  have hs : search s_five = ⟨⟨2 ^ 17 - 1, 5⟩, 0, 0, 1, 1⟩ :=
    search_zero_five (init_lz 17 zero_fn) (init_lz_head_zero 17)
  refine ⟨by rw [hs], by rw [hs], ?_, by decide, put_nbits_length _ _⟩
  simp only [encode_step, hs]
  rw [put_codes_out]
  have hB17 : s_five.num_POS_BITS = 17 := rfl
  have hout : s_five.out = [] := rfl
  simp [framing_bits, MIN_LEN, hB17, hout]

end Lzhhf
